import Mathlib

/-!
Verification of the `frof` wavefront job executor (`src/frof/__init__.py`)
against its natural-language specification.

The Python module is shallowly embedded here:

* a networkx `DiGraph` becomes a `DiGraph` structure holding the node list
  (in insertion order, with each node's attribute dict) and the edge list;
* `LocalFrofExecutor.get_next_jobs` becomes the pure function `getNextJobs`
  (Python exceptions surface as `Except PyErr`);
* `LocalFrofExecutor.execute` becomes the fuel-indexed `executeFuel`, which
  returns the sequence of admitted waves together with the final outcome
  (the event-loop / `asyncio.gather` machinery is external; a job's run is
  modelled by a success predicate `jobOk` on the node name, and `gather`'s
  first-failure propagation becomes the `jobFailure` outcome taken before
  the node-removal step);
* Python object aliasing (`copy.deepcopy` in `FrofPlan.as_networkx` versus
  the pointer returned by `get_current_network`) is modelled by a small
  heap of graphs addressed by allocation index.
-/

namespace Frof

/-- Python errors that the embedded fragment can raise. -/
inductive PyErr where
  | typeError : PyErr
  deriving Repr, DecidableEq

/-- `MAX_PARALLEL = 99999` (line 12 of the source). -/
def MAX_PARALLEL : Int := 99999

/-- The attribute dict carried by one node of the job network, per the
parser contract: a `job` object (identified here by an opaque name),
an optional `parallelism_group` string and an optional
`max_parallel_count`.  `max_parallel_count = some none` models the key
being present with Python value `None`; `some (some k)` models an integer
value; `none` models an absent key. -/
structure NodeAttrs where
  job : String
  parallelism_group : Option String
  max_parallel_count : Option (Option Int)
  deriving Repr, DecidableEq

/-- A networkx `DiGraph` as the engine uses it: nodes in insertion order
with their attribute dicts, plus directed edges. -/
structure DiGraph where
  nodes : List (String × NodeAttrs)
  edges : List (String × String)
  deriving Repr, DecidableEq

/-- The node names of a graph. -/
def nodeIds (g : DiGraph) : List String :=
  g.nodes.map Prod.fst

/-- `self.current_network.in_degree(i)`: number of edges into `i`. -/
def inDegree (g : DiGraph) (i : String) : Nat :=
  (g.edges.filter (fun e => e.2 = i)).length

/-- `graph.remove_node(i)`: drop the node and every incident edge. -/
def removeNode (g : DiGraph) (i : String) : DiGraph :=
  { nodes := g.nodes.filter (fun p => p.1 ≠ i)
    edges := g.edges.filter (fun e => e.1 ≠ i ∧ e.2 ≠ i) }

/-- Python truthiness of `job.get("parallelism_group", None)`: an absent
key yields `None` (falsy), and an empty string is also falsy. -/
def truthyGroup : Option String → Bool
  | none => false
  | some s => s ≠ ""

/-- `int(job.get("max_parallel_count", MAX_PARALLEL))` (line 272): an
absent key defaults to `MAX_PARALLEL`; a present integer passes through;
a present `None` makes `int(None)` raise `TypeError`.  (The subsequent
`if mpc is None` check on lines 273-274 of the source is unreachable,
because `int` never returns `None`.) -/
def mpcOf (mpc : Option (Option Int)) : Except PyErr Int :=
  match mpc with
  | none => .ok MAX_PARALLEL
  | some none => .error .typeError
  | some (some k) => .ok k

/-- The admission loop of `get_next_jobs` (lines 267-282): walk the
structurally-ready jobs in order, thread the per-wave
`parallelism_groups` counter dict, and collect admitted `(name, job)`
pairs.  Note the source increments a node's group counter *before*
comparing it with `max_parallel_count`: the dict update
`parallelism_groups[grp] = parallelism_groups.get(grp, 0) + 1` followed
by the lookup `parallelism_groups[grp] < mpc` is written out inline
below (the updated dict is the function passed to the recursive call,
and the comparison reads the freshly written value). -/
def admitLoop : List (String × NodeAttrs) → (String → Nat) →
    Except PyErr (List (String × String))
  | [], _ => .ok []
  | (i, a) :: rest, groups =>
    if truthyGroup a.parallelism_group then
      match mpcOf a.max_parallel_count with
      | .error e => .error e
      | .ok mpc =>
        if ((groups (a.parallelism_group.getD "") + 1 : Nat) : Int) < mpc then
          match admitLoop rest
              (fun x => if x = a.parallelism_group.getD "" then
                groups (a.parallelism_group.getD "") + 1 else groups x) with
          | .error e => .error e
          | .ok l => .ok ((i, a.job) :: l)
        else
          admitLoop rest
            (fun x => if x = a.parallelism_group.getD "" then
              groups (a.parallelism_group.getD "") + 1 else groups x)
    else
      match admitLoop rest groups with
      | .error e => .error e
      | .ok l => .ok ((i, a.job) :: l)

/-- `LocalFrofExecutor.get_next_jobs` (lines 246-282): filter the working
network down to the in-degree-zero nodes, then run the group-capped
admission loop with an empty counter dict. -/
def getNextJobs (g : DiGraph) : Except PyErr (List (String × String)) :=
  admitLoop (g.nodes.filter (fun p => inDegree g p.1 = 0)) (fun _ => 0)

/-- The node-removal step of `execute` (lines 315-316): remove every node
of the completed wave from the working network. -/
def removeAll (g : DiGraph) (wave : List (String × String)) : DiGraph :=
  wave.foldl (fun h p => removeNode h p.1) g

/-- The terminal state of a (fuel-bounded) run of `execute`. -/
inductive RunResult where
  | done : RunResult
  | jobFailure : DiGraph → RunResult
  | typeError : DiGraph → RunResult
  | outOfFuel : DiGraph → RunResult
  deriving Repr, DecidableEq

/-- The `while len(self.current_network)` loop of `execute` (lines
298-317), fuel-indexed since nothing in the source bounds it.  Each
iteration computes the wave via `get_next_jobs`, launches it (a job's
run succeeding iff `jobOk` holds of its node name), and — only when the
whole wave succeeded — removes the wave's nodes.  A failing job makes
`loop.run_until_complete` raise, aborting the call with the working
network untouched; a `TypeError` from `get_next_jobs` aborts likewise.
Returns the list of admitted waves (the failing wave included, since it
was launched) and the outcome. -/
def executeFuel (jobOk : String → Bool) :
    Nat → DiGraph → List (List (String × String)) × RunResult
  | 0, g => ([], .outOfFuel g)
  | n + 1, g =>
    if g.nodes.length = 0 then ([], .done)
    else
      match getNextJobs g with
      | .error _ => ([], .typeError g)
      | .ok cj =>
        if cj.all (fun p => jobOk p.1) then
          let rest := executeFuel jobOk n (removeAll g cj)
          (cj :: rest.1, rest.2)
        else
          ([cj], .jobFailure g)

/-! ### Heap model of Python object aliasing

`copy.deepcopy` (lines 163 and 296) allocates a fresh, structurally equal
graph, while `get_current_network` (line 231) hands out a pointer to the
executor's own working graph.  A heap is a list of graphs; an address is
an allocation index. -/

/-- The heap of graph objects. -/
abbrev Heap := List DiGraph

/-- Dereference an address (out-of-range addresses default to an empty
graph; the theorems carry validity hypotheses). -/
def hGet (h : Heap) (a : Nat) : DiGraph :=
  List.getD h a ⟨[], []⟩

/-- Overwrite the graph stored at an address: the effect of mutating the
object that the address points to. -/
def hSet (h : Heap) (a : Nat) (g : DiGraph) : Heap :=
  List.set h a g

/-- Allocate a fresh object holding `g`, returning its address. -/
def hAlloc (h : Heap) (g : DiGraph) : Heap × Nat :=
  (h ++ [g], h.length)

/-- A `FrofPlan` object: the address of its canonical `network`. -/
structure PlanObj where
  network : Nat

/-- `FrofPlan.as_networkx` (lines 152-163): `copy.deepcopy(self.network)`
allocates a fresh structural copy of the canonical graph and returns its
address. -/
def asNetworkx (h : Heap) (p : PlanObj) : Heap × Nat :=
  hAlloc h (hGet h p.network)

/-- A `LocalFrofExecutor` object: its plan and the address of its
`current_network`. -/
structure ExecObj where
  fp : PlanObj
  current_network : Nat

/-- `LocalFrofExecutor.__init__` (lines 194-218) with an already-built
plan: `self.current_network = nx.DiGraph()` allocates a fresh empty
graph. -/
def localExecutorNew (h : Heap) (p : PlanObj) : Heap × ExecObj :=
  let alloc := hAlloc h ⟨[], []⟩
  (alloc.1, ⟨p, alloc.2⟩)

/-- `LocalFrofExecutor.get_current_network` (lines 220-231): returns a
pointer to (the address of) the working network, not a copy. -/
def getCurrentNetwork (e : ExecObj) : Nat :=
  e.current_network

/-- `LocalFrofExecutor.get_next_jobs` with the heap threaded explicitly:
the body (lines 261-282) only reads `self.current_network`, so the
returned heap is the input heap. -/
def getNextJobsHeap (h : Heap) (e : ExecObj) :
    Except PyErr (List (String × String)) × Heap :=
  (getNextJobs (hGet h e.current_network), h)

/-! ### Plan construction -/

/-- What `FrofPlan.__init__` is given: a string (path or document text)
or an already-built graph. -/
inductive PlanSource where
  | str : String → PlanSource
  | graph : DiGraph → PlanSource

/-- The membership test `"\x0a" not in frof`, on the character list of
the string. -/
def hasNewline (s : String) : Bool :=
  s.data.any (fun ch => ch = '\n')

/-- The value of `self.network` after `FrofPlan.__init__` (lines
128-150).  The filesystem is `fs` (path contents, `none` meaning
`FileNotFoundError`), `expanduser` is `os.path.expanduser`, and `parse`
is the external `FrofParser().parse`.  A graph argument is stored as is.
A single-line string is first tried as a path; on `FileNotFoundError`
the string itself is parsed as document text.  A string containing a
newline skips the `if "\x0a" not in frof` branch, and — the outer `else`
only covering non-strings — no assignment to `self.network` ever runs:
the result is `none` (reading the attribute later raises
`AttributeError`). -/
def planNetwork (fs : String → Option String) (expanduser : String → String)
    (parse : String → DiGraph) : PlanSource → Option DiGraph
  | .graph g => some g
  | .str s =>
    if ¬ hasNewline s then
      match fs (expanduser s) with
      | some contents => some (parse contents)
      | none => some (parse s)
    else
      none

/-! ### Concrete scenario graphs -/

/-- A single job in parallelism group `"g"` with `max_parallel_count = 1`
(the spec's Scenario C shape, reduced to one node).  Acyclic. -/
def gCapOne : DiGraph :=
  ⟨[("a", ⟨"job_a", some "g", some (some 1)⟩)], []⟩

/-- Scenario D: `a` (group `"g"`, cap 2), `b` (group `"g"`, cap 2), `c`
(no group), no edges. -/
def gScenarioD : DiGraph :=
  ⟨[("a", ⟨"job_a", some "g", some (some 2)⟩),
    ("b", ⟨"job_b", some "g", some (some 2)⟩),
    ("c", ⟨"job_c", none, none⟩)], []⟩

/-- A ready grouped node whose `max_parallel_count` key is present with
value `None`. -/
def gMpcNone : DiGraph :=
  ⟨[("a", ⟨"job_a", some "g", some none⟩)], []⟩

/-- A ready grouped node with no `max_parallel_count` key at all. -/
def gMpcUnset : DiGraph :=
  ⟨[("a", ⟨"job_a", some "g", none⟩)], []⟩

/-- Chain `a → b`, no groups (half of the spec's Scenario A). -/
def gChain : DiGraph :=
  ⟨[("a", ⟨"job_a", none, none⟩), ("b", ⟨"job_b", none, none⟩)],
   [("a", "b")]⟩

/-- Three independent nodes in group `"g"` with `max_parallel_count = 3`. -/
def gGroupThree : DiGraph :=
  ⟨[("a", ⟨"job_a", some "g", some (some 3)⟩),
    ("b", ⟨"job_b", some "g", some (some 3)⟩),
    ("c", ⟨"job_c", some "g", some (some 3)⟩)], []⟩

/-- A single ungrouped node. -/
def gSolo : DiGraph :=
  ⟨[("a", ⟨"job_a", none, none⟩)], []⟩

/-- Two nodes whose `parallelism_group` is the *empty* string with
`max_parallel_count = 0`: Python truthiness makes `get_next_jobs` treat
them as ungrouped, so both are admitted despite the cap of `0`. -/
def gEmptyGroup : DiGraph :=
  ⟨[("a", ⟨"job_a", some "", some (some 0)⟩),
    ("b", ⟨"job_b", some "", some (some 0)⟩)], []⟩

/-! ### Attribute-preserving view of the admission loop

`admitLoopA` runs the exact control flow of `admitLoop` but keeps each
admitted node's whole attribute dict instead of projecting to
`job["job"]`; `admitLoop` is its image under that projection
(`admitLoop_eq_mapA` below), which lets wave-level statements count
admitted nodes of a parallelism group by the attributes they carry. -/

/-- `admitLoop`, collecting `(name, attrs)` instead of
`(name, attrs["job"])`. -/
def admitLoopA : List (String × NodeAttrs) → (String → Nat) →
    Except PyErr (List (String × NodeAttrs))
  | [], _ => .ok []
  | (i, a) :: rest, groups =>
    if truthyGroup a.parallelism_group then
      match mpcOf a.max_parallel_count with
      | .error e => .error e
      | .ok mpc =>
        if ((groups (a.parallelism_group.getD "") + 1 : Nat) : Int) < mpc then
          match admitLoopA rest
              (fun x => if x = a.parallelism_group.getD "" then
                groups (a.parallelism_group.getD "") + 1 else groups x) with
          | .error e => .error e
          | .ok l => .ok ((i, a) :: l)
        else
          admitLoopA rest
            (fun x => if x = a.parallelism_group.getD "" then
              groups (a.parallelism_group.getD "") + 1 else groups x)
    else
      match admitLoopA rest groups with
      | .error e => .error e
      | .ok l => .ok ((i, a) :: l)

/-- `getNextJobs`, keeping attribute dicts. -/
def getNextJobsA (g : DiGraph) : Except PyErr (List (String × NodeAttrs)) :=
  admitLoopA (g.nodes.filter (fun p => inDegree g p.1 = 0)) (fun _ => 0)

/-- How many nodes of an admitted wave carry `parallelism_group = γ`. -/
def waveGroupCount (γ : String) (l : List (String × NodeAttrs)) : Nat :=
  l.countP (fun q => q.2.parallelism_group == some γ)

/-! ### Supporting lemmas -/

theorem nodeIds_removeNode {g : DiGraph} {y x : String} :
    x ∈ nodeIds (removeNode g y) ↔ x ∈ nodeIds g ∧ x ≠ y := by
  constructor
  · intro hx
    rcases List.mem_map.mp hx with ⟨p, hp, rfl⟩
    have h := List.mem_filter.mp hp
    exact ⟨List.mem_map.mpr ⟨p, h.1, rfl⟩, by simpa using h.2⟩
  · rintro ⟨hx, hne⟩
    rcases List.mem_map.mp hx with ⟨p, hp, rfl⟩
    exact List.mem_map.mpr ⟨p, List.mem_filter.mpr ⟨hp, by simpa using hne⟩, rfl⟩

theorem edges_removeNode {g : DiGraph} {y : String} {e : String × String} :
    e ∈ (removeNode g y).edges ↔ e ∈ g.edges ∧ e.1 ≠ y ∧ e.2 ≠ y := by
  simp [removeNode, List.mem_filter]

theorem removeAll_cons {g : DiGraph} {p : String × String}
    {w : List (String × String)} :
    removeAll g (p :: w) = removeAll (removeNode g p.1) w := rfl

theorem mem_nodeIds_removeAll {w : List (String × String)} :
    ∀ {g : DiGraph} {x : String},
      x ∈ nodeIds (removeAll g w) ↔ x ∈ nodeIds g ∧ x ∉ w.map Prod.fst := by
  induction w with
  | nil => intro g x; simp [removeAll]
  | cons p w ih =>
    intro g x
    rw [removeAll_cons, ih, nodeIds_removeNode]
    simp only [List.map_cons, List.mem_cons, not_or]
    tauto

theorem mem_edges_removeAll {w : List (String × String)} :
    ∀ {g : DiGraph} {e : String × String},
      e ∈ (removeAll g w).edges ↔
        e ∈ g.edges ∧ e.1 ∉ w.map Prod.fst ∧ e.2 ∉ w.map Prod.fst := by
  induction w with
  | nil => intro g e; simp [removeAll]
  | cons p w ih =>
    intro g e
    rw [removeAll_cons, ih, edges_removeNode]
    simp only [List.map_cons, List.mem_cons, not_or]
    tauto

theorem admitLoop_mem (jobs : List (String × NodeAttrs)) (groups : String → Nat) :
    ∀ l, admitLoop jobs groups = .ok l →
      ∀ p ∈ l, ∃ a, (p.1, a) ∈ jobs ∧ p.2 = a.job := by
  induction jobs, groups using admitLoop.induct with
  | case1 groups =>
    intro l h p hp
    simp only [admitLoop, Except.ok.injEq] at h
    subst h
    simp at hp
  | case2 i a rest groups htr e hm =>
    intro l h p hp
    simp [admitLoop, htr, hm] at h
  | case3 i a rest groups htr mpc hm hlt e hrec ih =>
    intro l h p hp
    push_cast at hlt
    simp [admitLoop, htr, hm, hlt, hrec] at h
  | case4 i a rest groups htr mpc hm hlt l0 hrec ih =>
    intro l h p hp
    push_cast at hlt
    simp [admitLoop, htr, hm, hlt, hrec] at h
    subst h
    cases hp with
    | head => exact ⟨a, List.mem_cons_self _ _, rfl⟩
    | tail _ hp =>
      obtain ⟨a', ha', hj⟩ := ih l0 hrec p hp
      exact ⟨a', List.mem_cons_of_mem _ ha', hj⟩
  | case5 i a rest groups htr mpc hm hlt ih =>
    intro l h p hp
    push_cast at hlt
    simp [admitLoop, htr, hm, hlt] at h
    obtain ⟨a', ha', hj⟩ := ih l h p hp
    exact ⟨a', List.mem_cons_of_mem _ ha', hj⟩
  | case6 i a rest groups htr e hrec ih =>
    intro l h p hp
    simp [admitLoop, htr, hrec] at h
  | case7 i a rest groups htr l0 hrec ih =>
    intro l h p hp
    simp [admitLoop, htr, hrec] at h
    subst h
    cases hp with
    | head => exact ⟨a, List.mem_cons_self _ _, rfl⟩
    | tail _ hp =>
      obtain ⟨a', ha', hj⟩ := ih l0 hrec p hp
      exact ⟨a', List.mem_cons_of_mem _ ha', hj⟩

theorem admitLoopA_mem (jobs : List (String × NodeAttrs)) (groups : String → Nat) :
    ∀ l, admitLoopA jobs groups = .ok l →
      ∀ q ∈ l, q ∈ jobs := by
  induction jobs, groups using admitLoopA.induct with
  | case1 groups =>
    intro l h q hq
    simp only [admitLoopA, Except.ok.injEq] at h
    subst h
    simp at hq
  | case2 i a rest groups htr e hm =>
    intro l h q hq
    simp [admitLoopA, htr, hm] at h
  | case3 i a rest groups htr mpc hm hlt e hrec ih =>
    intro l h q hq
    push_cast at hlt
    simp [admitLoopA, htr, hm, hlt, hrec] at h
  | case4 i a rest groups htr mpc hm hlt l0 hrec ih =>
    intro l h q hq
    push_cast at hlt
    simp [admitLoopA, htr, hm, hlt, hrec] at h
    subst h
    cases hq with
    | head => exact List.mem_cons_self _ _
    | tail _ hq => exact List.mem_cons_of_mem _ (ih l0 hrec q hq)
  | case5 i a rest groups htr mpc hm hlt ih =>
    intro l h q hq
    push_cast at hlt
    simp [admitLoopA, htr, hm, hlt] at h
    exact List.mem_cons_of_mem _ (ih l h q hq)
  | case6 i a rest groups htr e hrec ih =>
    intro l h q hq
    simp [admitLoopA, htr, hrec] at h
  | case7 i a rest groups htr l0 hrec ih =>
    intro l h q hq
    simp [admitLoopA, htr, hrec] at h
    subst h
    cases hq with
    | head => exact List.mem_cons_self _ _
    | tail _ hq => exact List.mem_cons_of_mem _ (ih l0 hrec q hq)

theorem admitLoop_eq_mapA (jobs : List (String × NodeAttrs)) (groups : String → Nat) :
    admitLoop jobs groups =
      (admitLoopA jobs groups).map (List.map (fun q => (q.1, q.2.job))) := by
  induction jobs, groups using admitLoopA.induct with
  | case1 groups => rfl
  | case2 i a rest groups htr e hm =>
    simp [admitLoop, admitLoopA, htr, hm, Except.map]
  | case3 i a rest groups htr mpc hm hlt e hrec ih =>
    push_cast at hlt
    simp [admitLoop, admitLoopA, htr, hm, hlt, hrec, ih, Except.map]
  | case4 i a rest groups htr mpc hm hlt l0 hrec ih =>
    push_cast at hlt
    simp [admitLoop, admitLoopA, htr, hm, hlt, hrec, ih, Except.map]
  | case5 i a rest groups htr mpc hm hlt ih =>
    push_cast at hlt
    simp [admitLoop, admitLoopA, htr, hm, hlt, ih]
  | case6 i a rest groups htr e hrec ih =>
    simp [admitLoop, admitLoopA, htr, hrec, ih, Except.map]
  | case7 i a rest groups htr l0 hrec ih =>
    simp [admitLoop, admitLoopA, htr, hrec, ih, Except.map]

/-- Counter invariant of the admission loop: if every node of group `γ`
(a real, nonempty group name) in the pending list carries
`max_parallel_count = k`, then the admitted nodes of group `γ` number at
most `k - 1 - groups γ` — the source increments a node's counter before
the strict comparison, so the counter values at admission time range
over `groups γ + 1, …, k - 1`. -/
theorem admitLoopA_group_bound (γ : String) (hγ : γ ≠ "") (k : Nat)
    (jobs : List (String × NodeAttrs)) (groups : String → Nat) :
    ∀ l, admitLoopA jobs groups = .ok l →
      (∀ q ∈ jobs, q.2.parallelism_group = some γ →
        q.2.max_parallel_count = some (some (k : Int))) →
      waveGroupCount γ l ≤ k - 1 - groups γ := by
  induction jobs, groups using admitLoopA.induct with
  | case1 groups =>
    intro l h hall
    simp only [admitLoopA, Except.ok.injEq] at h
    subst h
    simp [waveGroupCount]
  | case2 i a rest groups htr e hm =>
    intro l h hall
    simp [admitLoopA, htr, hm] at h
  | case3 i a rest groups htr mpc hm hlt e hrec ih =>
    intro l h hall
    push_cast at hlt
    simp [admitLoopA, htr, hm, hlt, hrec] at h
  | case4 i a rest groups htr mpc hm hlt l0 hrec ih =>
    intro l h hall
    push_cast at hlt
    simp [admitLoopA, htr, hm, hlt, hrec] at h
    subst h
    have hallRest : ∀ q ∈ rest, q.2.parallelism_group = some γ →
        q.2.max_parallel_count = some (some (k : Int)) :=
      fun q hq => hall q (List.mem_cons_of_mem _ hq)
    have hrec2 := ih l0 hrec hallRest
    by_cases hmem : a.parallelism_group = some γ
    · have hk := hall (i, a) (List.mem_cons_self _ _) hmem
      rw [hk] at hm
      simp [mpcOf] at hm
      subst hm
      simp only [hmem, Option.getD_some] at hlt hrec2
      have hnat : groups γ + 1 < k := by exact_mod_cast hlt
      have hrec3 : waveGroupCount γ l0 ≤ k - 1 - (groups γ + 1) := by
        simpa using hrec2
      have hcount : waveGroupCount γ ((i, a) :: l0) =
          waveGroupCount γ l0 + 1 := by
        simp [waveGroupCount, List.countP_cons, hmem]
      rw [hcount]
      omega
    · cases hpg : a.parallelism_group with
      | none => rw [hpg] at htr; simp [truthyGroup] at htr
      | some s =>
        have hsγ : γ ≠ s := by
          intro hs
          exact hmem (by rw [hpg, hs])
        have hrec3 : waveGroupCount γ l0 ≤ k - 1 - groups γ := by
          simpa [hpg, hsγ] using hrec2
        have hcount : waveGroupCount γ ((i, a) :: l0) = waveGroupCount γ l0 := by
          simp [waveGroupCount, List.countP_cons, hmem]
        rw [hcount]
        exact hrec3
  | case5 i a rest groups htr mpc hm hlt ih =>
    intro l h hall
    push_cast at hlt
    simp [admitLoopA, htr, hm, hlt] at h
    have hallRest : ∀ q ∈ rest, q.2.parallelism_group = some γ →
        q.2.max_parallel_count = some (some (k : Int)) :=
      fun q hq => hall q (List.mem_cons_of_mem _ hq)
    have hrec2 := ih l h hallRest
    by_cases hsγ : γ = a.parallelism_group.getD ""
    · have hrec3 : waveGroupCount γ l ≤ k - 1 - (groups γ + 1) := by
        simpa [← hsγ] using hrec2
      omega
    · have hrec3 : waveGroupCount γ l ≤ k - 1 - groups γ := by
        simpa [hsγ] using hrec2
      exact hrec3
  | case6 i a rest groups htr e hrec ih =>
    intro l h hall
    simp [admitLoopA, htr, hrec] at h
  | case7 i a rest groups htr l0 hrec ih =>
    intro l h hall
    simp [admitLoopA, htr, hrec] at h
    subst h
    have hallRest : ∀ q ∈ rest, q.2.parallelism_group = some γ →
        q.2.max_parallel_count = some (some (k : Int)) :=
      fun q hq => hall q (List.mem_cons_of_mem _ hq)
    have hrec2 := ih l0 hrec hallRest
    have hmem : ¬ a.parallelism_group = some γ := by
      intro hpg
      rw [hpg] at htr
      simp [truthyGroup, hγ] at htr
    have hcount : waveGroupCount γ ((i, a) :: l0) = waveGroupCount γ l0 := by
      simp [waveGroupCount, List.countP_cons, hmem]
    rw [hcount]
    exact hrec2

theorem hGet_alloc (h : Heap) (g : DiGraph) : hGet (h ++ [g]) h.length = g := by
  induction h with
  | nil => rfl
  | cons x xs ih => exact ih

theorem hGet_append_lt (h h₂ : Heap) :
    ∀ a, a < h.length → hGet (h ++ h₂) a = hGet h a := by
  induction h with
  | nil => intro a ha; exact absurd ha (Nat.not_lt_zero a)
  | cons x xs ih =>
    intro a ha
    cases a with
    | zero => rfl
    | succ a => exact ih a (Nat.lt_of_succ_lt_succ ha)

theorem hGet_set_ne (h : Heap) :
    ∀ a b, a ≠ b → ∀ g, hGet (hSet h a g) b = hGet h b := by
  induction h with
  | nil => intro a b _ g; rfl
  | cons x xs ih =>
    intro a b hab g
    cases a with
    | zero =>
      cases b with
      | zero => exact absurd rfl hab
      | succ b => rfl
    | succ a =>
      cases b with
      | zero => rfl
      | succ b => exact ih a b (fun hc => hab (by rw [hc])) g

theorem mem_of_getElem? {α : Type} :
    ∀ (l : List α) (n : Nat) (a : α), l[n]? = some a → a ∈ l := by
  intro l
  induction l with
  | nil => intro n a h; simp at h
  | cons x xs ih =>
    intro n a h
    cases n with
    | zero =>
      simp only [List.getElem?_cons_zero, Option.some.injEq] at h
      subst h
      exact List.mem_cons_self _ _
    | succ n =>
      simp only [List.getElem?_cons_succ] at h
      exact List.mem_cons_of_mem _ (ih n a h)

/-- Every pair returned by `get_next_jobs` names a node of the working
network whose in-degree is zero. -/
theorem getNextJobs_ready (g : DiGraph) (l : List (String × String))
    (h : getNextJobs g = .ok l) :
    ∀ x ∈ l.map Prod.fst, x ∈ nodeIds g ∧ inDegree g x = 0 := by
  intro x hx
  rcases List.mem_map.mp hx with ⟨p, hp, rfl⟩
  obtain ⟨a, ha, _⟩ := admitLoop_mem _ _ _ h p hp
  have hmem := List.mem_filter.mp ha
  refine ⟨List.mem_map.mpr ⟨(p.1, a), hmem.1, rfl⟩, ?_⟩
  simpa using hmem.2

/-- A node with an incoming edge has positive in-degree. -/
theorem inDegree_pos_of_edge {g : DiGraph} {u v : String}
    (he : (u, v) ∈ g.edges) : inDegree g v ≠ 0 := by
  intro h0
  have : (u, v) ∈ g.edges.filter (fun e => e.2 = v) :=
    List.mem_filter.mpr ⟨he, by simp⟩
  rw [inDegree] at h0
  rw [List.length_eq_zero] at h0
  rw [h0] at this
  simp at this

/-- The target of a surviving edge is never admitted by `get_next_jobs`. -/
theorem edge_target_not_admitted {g : DiGraph} {cj : List (String × String)}
    (hnj : getNextJobs g = .ok cj) {u v : String} (he : (u, v) ∈ g.edges) :
    v ∉ cj.map Prod.fst := by
  intro hv
  exact inDegree_pos_of_edge he (getNextJobs_ready g cj hnj v hv).2

/-- Every node admitted in any wave of a (fuel-bounded) run was a node of
the starting working network. -/
theorem executeFuel_waves_ids (jobOk : String → Bool) :
    ∀ (n : Nat) (g : DiGraph), ∀ w ∈ (executeFuel jobOk n g).1,
      ∀ x ∈ w.map Prod.fst, x ∈ nodeIds g := by
  intro n
  induction n with
  | zero => intro g w hw; simp [executeFuel] at hw
  | succ n ih =>
    intro g w hw x hx
    by_cases hlen : g.nodes.length = 0
    · simp [executeFuel, hlen] at hw
    · cases hnj : getNextJobs g with
      | error e => simp [executeFuel, hlen, hnj] at hw
      | ok cj =>
        by_cases hall : cj.all (fun p => jobOk p.1)
        · have hws : (executeFuel jobOk (n + 1) g).1 =
              cj :: (executeFuel jobOk n (removeAll g cj)).1 := by
            simp [executeFuel, hlen, hnj, hall]
          rw [hws] at hw
          rcases List.mem_cons.mp hw with rfl | hw'
          · exact (getNextJobs_ready g w hnj x hx).1
          · exact (mem_nodeIds_removeAll.mp (ih (removeAll g cj) w hw' x hx)).1
        · have hws : (executeFuel jobOk (n + 1) g).1 = [cj] := by
            simp [executeFuel, hlen, hnj, hall]
          rw [hws] at hw
          rcases List.mem_cons.mp hw with rfl | hw'
          · exact (getNextJobs_ready g w hnj x hx).1
          · simp at hw'

/-! ### The claims -/

/-- C1: the spec claims every acyclic graph runs to termination with the
working network emptied and each node admitted in exactly one wave.  The
code violates this: on the acyclic one-node graph `gCapOne` (group `"g"`,
`max_parallel_count = 1`) the admission loop increments the group counter
to `1` before testing `1 < 1`, so `get_next_jobs` returns the empty wave,
nothing is ever removed, and the `while` loop of `execute` spins forever —
for every fuel bound the run is still `outOfFuel` with the network intact
and only empty waves launched. -/
theorem frof_C1_cap_one_stalls (n : Nat) :
    executeFuel (fun _ => true) n gCapOne =
      (List.replicate n [], .outOfFuel gCapOne) := by
  induction n with
  | zero => rfl
  | succ n ih =>
    have hstep : executeFuel (fun _ => true) (n + 1) gCapOne =
        (([] : List (String × String)) ::
            (executeFuel (fun _ => true) n gCapOne).1,
          (executeFuel (fun _ => true) n gCapOne).2) := rfl
    rw [hstep, ih]
    rfl

/-- C2: the spec's Scenario D expects one wave admitting all of `a`, `b`
(both group `"g"`, cap `2`) and `c` (ungrouped).  The code admits only
`a` and `c` in the first wave — `b`'s counter is incremented to `2`
before the strict test `2 < 2` — and needs a second wave for `b`. -/
theorem frof_C2_scenario_d :
    getNextJobs gScenarioD = .ok [("a", "job_a"), ("c", "job_c")] ∧
    executeFuel (fun _ => true) 3 gScenarioD =
      ([[("a", "job_a"), ("c", "job_c")], [("b", "job_b")]], .done) :=
  ⟨rfl, rfl⟩

/-- C3, counterexample to the claim as stated: for the parallelism group
whose name is the empty string, Python truthiness makes `get_next_jobs`
treat its members as ungrouped, so with `max_parallel_count = 0` both
members of `gEmptyGroup` are admitted in a single wave — more than `k = 0`
of that group. -/
theorem frof_C3_empty_group_cex :
    (∀ q ∈ gEmptyGroup.nodes, q.2.parallelism_group = some "" ∧
      q.2.max_parallel_count = some (some 0)) ∧
    getNextJobsA gEmptyGroup =
      .ok [("a", ⟨"job_a", some "", some (some 0)⟩),
           ("b", ⟨"job_b", some "", some (some 0)⟩)] ∧
    waveGroupCount "" [("a", ⟨"job_a", some "", some (some 0)⟩),
      ("b", ⟨"job_b", some "", some (some 0)⟩)] = 2 ∧
    ¬ waveGroupCount "" [("a", ⟨"job_a", some "", some (some 0)⟩),
      ("b", ⟨"job_b", some "", some (some 0)⟩)] ≤ 0 := by
  refine ⟨?_, rfl, rfl, by decide⟩
  decide

/-- C3 (amended: for groups with a *nonempty* name): if every node of
group `γ ≠ ""` carries `max_parallel_count = k`, a single call to
`get_next_jobs` admits at most `k` nodes of that group (in fact at most
`k - 1`, by the pre-increment comparison), no matter how many are
structurally ready. -/
theorem frof_C3_group_cap (g : DiGraph) (γ : String) (k : Nat) (hγ : γ ≠ "")
    (hall : ∀ q ∈ g.nodes, q.2.parallelism_group = some γ →
      q.2.max_parallel_count = some (some (k : Int)))
    (l : List (String × NodeAttrs)) (hok : getNextJobsA g = .ok l) :
    waveGroupCount γ l ≤ k ∧
      getNextJobs g = .ok (l.map (fun q => (q.1, q.2.job))) := by
  constructor
  · have hb := admitLoopA_group_bound γ hγ k
      (g.nodes.filter (fun p => inDegree g p.1 = 0)) (fun _ => 0) l hok
      (fun q hq => hall q (List.mem_filter.mp hq).1)
    omega
  · have hmap : getNextJobs g =
        (getNextJobsA g).map (List.map (fun q => (q.1, q.2.job))) :=
      admitLoop_eq_mapA _ _
    rw [hmap, hok]
    rfl

/-- Witness for `frof_C3_group_cap`: three ready nodes of group `"g"`
with cap `3`; the wave admits two of them, within the bound. -/
theorem frof_C3_group_cap_witness :
    waveGroupCount "g" [("a", ⟨"job_a", some "g", some (some 3)⟩),
      ("b", ⟨"job_b", some "g", some (some 3)⟩)] ≤ 3 ∧
    getNextJobs gGroupThree = .ok [("a", "job_a"), ("b", "job_b")] := by
  have h := frof_C3_group_cap gGroupThree "g" 3 (by decide) (by decide)
    [("a", ⟨"job_a", some "g", some (some 3)⟩),
     ("b", ⟨"job_b", some "g", some (some 3)⟩)] rfl
  simpa using h

/-- C6: the spec claims a string containing a newline is always handed to
the external parser as literal document text.  In the code the multi-line
case falls through both branches of `FrofPlan.__init__` — the inner
`if "\x0a" not in frof` guard fails and the outer `else` only covers
non-string arguments — so `self.network` is never assigned at all (later
access raises `AttributeError`), for every filesystem and every parser. -/
theorem frof_C6_multiline_never_assigned (fs : String → Option String)
    (expanduser : String → String) (parse : String → DiGraph)
    (s : String) (hnl : hasNewline s = true) :
    planNetwork fs expanduser parse (.str s) = none := by
  simp [planNetwork, hnl]

/-- Witness for `frof_C6_multiline_never_assigned` at the two-line
document `"a\x0ab"`. -/
theorem frof_C6_witness :
    hasNewline "a\nb" = true ∧
    planNetwork (fun _ => none) (fun s => s) (fun _ => ⟨[], []⟩)
      (.str "a\nb") = none :=
  ⟨by decide, frof_C6_multiline_never_assigned _ _ _ _ (by decide)⟩

/-- C7: the spec claims a grouped ready node whose `max_parallel_count`
is unset *or `None`* is treated as unbounded without raising.  Unset is
indeed defaulted to `MAX_PARALLEL` and admitted, but a present `None`
reaches `int(None)` (line 272), which raises `TypeError` before the dead
`if mpc is None` guard can run, so `get_next_jobs` raises instead of
admitting the node. -/
theorem frof_C7_mpc_none_raises :
    getNextJobs gMpcNone = .error .typeError ∧
    getNextJobs gMpcUnset = .ok [("a", "job_a")] :=
  ⟨rfl, rfl⟩

/-- C8: `as_networkx` returns a deep copy: a fresh address, structurally
equal to the canonical network, whose mutation (to any graph whatsoever)
leaves the Plan's stored network unchanged. -/
theorem frof_C8_as_networkx_deep_copy (h : Heap) (p : PlanObj)
    (hp : p.network < h.length) :
    (asNetworkx h p).2 ≠ p.network ∧
    hGet (asNetworkx h p).1 (asNetworkx h p).2 = hGet h p.network ∧
    hGet (asNetworkx h p).1 p.network = hGet h p.network ∧
    ∀ g', hGet (hSet (asNetworkx h p).1 (asNetworkx h p).2 g') p.network =
      hGet h p.network := by
  refine ⟨(Nat.ne_of_lt hp).symm, hGet_alloc h _, ?_, ?_⟩
  · exact hGet_append_lt h _ p.network hp
  · intro g'
    show hGet (hSet (h ++ [hGet h p.network]) h.length g') p.network =
      hGet h p.network
    rw [hGet_set_ne _ _ _ (Nat.ne_of_lt hp).symm g']
    exact hGet_append_lt h _ p.network hp

/-- Witness for `frof_C8_as_networkx_deep_copy` on a one-object heap
holding `gChain`: the copy is at address 1, mutating it to the empty
graph leaves address 0 untouched. -/
theorem frof_C8_witness :
    (0 : Nat) < ([gChain] : Heap).length ∧
    (asNetworkx [gChain] ⟨0⟩).2 ≠ 0 ∧
    hGet (hSet (asNetworkx [gChain] ⟨0⟩).1 (asNetworkx [gChain] ⟨0⟩).2
      ⟨[], []⟩) 0 = gChain := by
  have h := frof_C8_as_networkx_deep_copy [gChain] ⟨0⟩ (by decide)
  exact ⟨by decide, h.1, h.2.2.2 ⟨[], []⟩⟩

/-- C9: `get_next_jobs` is a pure query: it returns exactly the admitted
list computed from the working network, and the heap — hence both the
executor's `current_network` and the Plan's canonical network — is
returned unchanged. -/
theorem frof_C9_get_next_jobs_pure (h : Heap) (e : ExecObj) :
    (getNextJobsHeap h e).1 = getNextJobs (hGet h e.current_network) ∧
    (getNextJobsHeap h e).2 = h ∧
    hGet (getNextJobsHeap h e).2 e.current_network =
      hGet h e.current_network ∧
    hGet (getNextJobsHeap h e).2 e.fp.network = hGet h e.fp.network :=
  ⟨rfl, rfl, rfl, rfl⟩

/-- C10: a freshly constructed `LocalFrofExecutor` allocates
`nx.DiGraph()` as its working network, so before any `execute` call
`get_current_network` yields the empty graph and `get_next_jobs` returns
the empty list. -/
theorem frof_C10_fresh_executor (h : Heap) (p : PlanObj) :
    hGet (localExecutorNew h p).1
      (getCurrentNetwork (localExecutorNew h p).2) = ⟨[], []⟩ ∧
    (getNextJobsHeap (localExecutorNew h p).1 (localExecutorNew h p).2).1 =
      .ok [] := by
  constructor
  · exact hGet_alloc h ⟨[], []⟩
  · show getNextJobs (hGet (h ++ [⟨[], []⟩]) h.length) = .ok []
    rw [hGet_alloc h ⟨[], []⟩]
    rfl

/-- C4: for every edge `u → v` of the working graph, in any (fuel-bounded)
run of `execute` the wave admitting `v` comes strictly after the wave
admitting `u`: while `u` is present the edge keeps `v`'s in-degree
positive, and the edge disappears only when `u`'s wave is pruned. -/
theorem frof_C4_edge_wave_order (jobOk : String → Bool) :
    ∀ (n : Nat) (g : DiGraph) (u v : String), (u, v) ∈ g.edges →
      ∀ (i j : Nat) (wi wj : List (String × String)),
        (executeFuel jobOk n g).1[i]? = some wi →
        (executeFuel jobOk n g).1[j]? = some wj →
        u ∈ wi.map Prod.fst → v ∈ wj.map Prod.fst →
        i < j := by
  intro n
  induction n with
  | zero =>
    intro g u v he i j wi wj hwi hwj hu hv
    simp [executeFuel] at hwi
  | succ n ih =>
    intro g u v he i j wi wj hwi hwj hu hv
    by_cases hlen : g.nodes.length = 0
    · simp [executeFuel, hlen] at hwi
    · cases hnj : getNextJobs g with
      | error e => simp [executeFuel, hlen, hnj] at hwi
      | ok cj =>
        by_cases hall : cj.all (fun p => jobOk p.1)
        · have hws : (executeFuel jobOk (n + 1) g).1 =
              cj :: (executeFuel jobOk n (removeAll g cj)).1 := by
            simp [executeFuel, hlen, hnj, hall]
          rw [hws] at hwi hwj
          cases j with
          | zero =>
            simp only [List.getElem?_cons_zero, Option.some.injEq] at hwj
            subst hwj
            exact absurd hv (edge_target_not_admitted hnj he)
          | succ j =>
            cases i with
            | zero => exact Nat.succ_pos j
            | succ i =>
              simp only [List.getElem?_cons_succ] at hwi hwj
              have hu' : u ∉ cj.map Prod.fst := by
                intro hmem
                have hwi_mem : wi ∈ (executeFuel jobOk n (removeAll g cj)).1 :=
                  mem_of_getElem? _ _ _ hwi
                have hnode :=
                  executeFuel_waves_ids jobOk n (removeAll g cj) wi hwi_mem u hu
                exact (mem_nodeIds_removeAll.mp hnode).2 hmem
              have hv' : v ∉ cj.map Prod.fst := edge_target_not_admitted hnj he
              have he' : (u, v) ∈ (removeAll g cj).edges :=
                mem_edges_removeAll.mpr ⟨he, hu', hv'⟩
              exact Nat.succ_lt_succ
                (ih (removeAll g cj) u v he' i j wi wj hwi hwj hu hv)
        · have hws : (executeFuel jobOk (n + 1) g).1 = [cj] := by
            simp [executeFuel, hlen, hnj, hall]
          rw [hws] at hwi hwj
          cases j with
          | zero =>
            simp only [List.getElem?_cons_zero, Option.some.injEq] at hwj
            subst hwj
            exact absurd hv (edge_target_not_admitted hnj he)
          | succ j => simp at hwj

/-- Witness for `frof_C4_edge_wave_order`: on the chain `a → b`, `a` is
admitted in wave 0 and `b` in wave 1, and `0 < 1`. -/
theorem frof_C4_witness :
    ("a", "b") ∈ gChain.edges ∧ (0 : Nat) < 1 :=
  ⟨by decide,
    frof_C4_edge_wave_order (fun _ => true) 3 gChain "a" "b" (by decide)
      0 1 [("a", "job_a")] [("b", "job_b")] rfl rfl (by decide) (by decide)⟩

/-- C5: if some wave of a run contains a failing job, that wave is the
last one launched, `execute` aborts with `jobFailure`, and the working
network handed back still contains every node of the failing wave and
every node not admitted by an earlier (completed) wave — the removal step
for the failing wave never runs. -/
theorem frof_C5_failure_aborts (jobOk : String → Bool) :
    ∀ (n : Nat) (g : DiGraph) (ws : List (List (String × String)))
      (r : RunResult), executeFuel jobOk n g = (ws, r) →
      ∀ w ∈ ws, (∃ p ∈ w, jobOk p.1 = false) →
      ∃ gf ws₀, r = .jobFailure gf ∧ ws = ws₀ ++ [w] ∧
        (∀ q ∈ w, q.1 ∈ nodeIds gf) ∧
        (∀ x ∈ nodeIds g, (∀ w' ∈ ws₀, x ∉ w'.map Prod.fst) →
          x ∈ nodeIds gf) := by
  intro n
  induction n with
  | zero =>
    intro g ws r hex w hw hfail
    simp only [executeFuel, Prod.mk.injEq] at hex
    rw [← hex.1] at hw
    simp at hw
  | succ n ih =>
    intro g ws r hex w hw hfail
    by_cases hlen : g.nodes.length = 0
    · simp only [executeFuel, hlen, if_true, Prod.mk.injEq] at hex
      obtain ⟨h1, h2⟩ := hex
      subst h1
      simp at hw
    · cases hnj : getNextJobs g with
      | error e =>
        simp [executeFuel, hlen, hnj, Prod.mk.injEq] at hex
        obtain ⟨h1, h2⟩ := hex
        subst h1
        simp at hw
      | ok cj =>
        by_cases hall : cj.all (fun p => jobOk p.1)
        · have hunf : executeFuel jobOk (n + 1) g =
              (cj :: (executeFuel jobOk n (removeAll g cj)).1,
                (executeFuel jobOk n (removeAll g cj)).2) := by
            simp [executeFuel, hlen, hnj, hall]
          rw [hunf] at hex
          injection hex with hws hr
          rw [← hws] at hw
          rcases List.mem_cons.mp hw with rfl | hw'
          · obtain ⟨p, hp, hpf⟩ := hfail
            have htrue := List.all_eq_true.mp hall p hp
            simp [hpf] at htrue
          · obtain ⟨gf, ws₀', hr', hws', hwave, hrest⟩ :=
              ih (removeAll g cj) _ _ rfl w hw' hfail
            refine ⟨gf, cj :: ws₀', ?_, ?_, hwave, ?_⟩
            · rw [← hr]; exact hr'
            · rw [← hws, hws']; rfl
            · intro x hx hnot
              have hxcj : x ∉ cj.map Prod.fst :=
                hnot cj (List.mem_cons_self _ _)
              have hx' : x ∈ nodeIds (removeAll g cj) :=
                mem_nodeIds_removeAll.mpr ⟨hx, hxcj⟩
              exact hrest x hx'
                (fun w' hw'' => hnot w' (List.mem_cons_of_mem _ hw''))
        · have hunf : executeFuel jobOk (n + 1) g = ([cj], .jobFailure g) := by
            simp [executeFuel, hlen, hnj, hall]
          rw [hunf] at hex
          injection hex with hws hr
          rw [← hws] at hw
          rcases List.mem_cons.mp hw with rfl | hw'
          · refine ⟨g, [], hr.symm, by rw [← hws]; rfl, ?_, ?_⟩
            · intro q hq
              exact (getNextJobs_ready g w hnj q.1
                (List.mem_map.mpr ⟨q, hq, rfl⟩)).1
            · intro x hx _
              exact hx
          · simp at hw'

/-- Witness for `frof_C5_failure_aborts`: a single failing job on the
one-node graph `gSolo`; the run aborts with the network intact. -/
theorem frof_C5_witness :
    ∃ gf ws₀,
      RunResult.jobFailure gSolo = .jobFailure gf ∧
      ([[("a", "job_a")]] : List (List (String × String))) =
        ws₀ ++ [[("a", "job_a")]] ∧
      (∀ q ∈ [(("a" : String), ("job_a" : String))], q.1 ∈ nodeIds gf) ∧
      (∀ x ∈ nodeIds gSolo, (∀ w' ∈ ws₀, x ∉ w'.map Prod.fst) →
        x ∈ nodeIds gf) :=
  frof_C5_failure_aborts (fun _ => false) 1 gSolo [[("a", "job_a")]]
    (.jobFailure gSolo) rfl [("a", "job_a")] (by simp)
    ⟨("a", "job_a"), by simp, rfl⟩

end Frof
